import Mathlib

/-!
# Verification of the LeMerk flat-array Merkle tree core

This file shallowly embeds the core of `src/lib.rs` of the `lemerk`
repository: the `LeMerkLevel` checked block accessors, the `LeMerkTree`
node lookups (`get_node_by_index`, `get_node_by_depth_offset`) and the
`VirtualNode` view with its recomputed `get_ancestor`.

Modelling conventions:
* `usize` is modelled as `Nat`; the `checked_*` arithmetic operations of
  Rust are modelled faithfully as `Option`-valued functions that fail when
  the mathematical result exceeds `USIZE_MAX = 2^64 - 1` (the code targets
  64-bit platforms).
* `Vec<[u8; CIPHER_BLOCK_SIZE]>` is modelled as a `List α` over an
  abstract block type `α` (the claims under study never inspect block
  contents, mirroring the const-generic block size of the source).
* Rust `Result` is `Except`, with the error enums of the `error` module
  reconstructed from their uses in `lib.rs` and the spec's §7 taxonomy.
* A mutable borrow of a block (`get_cipher_block_mut_ref`, the
  `data_hash: &'a mut` field) is modelled by returning the block value,
  and a write through that reference is modelled by the explicit
  state-passing function `write_hash_by_index`.
-/

namespace LeMerk

/-- Largest value of a 64-bit `usize`. -/
def USIZE_MAX : Nat := 2 ^ 64 - 1

/-- Largest value of a 64-bit `isize`; a Rust `Vec` of elements of positive
size can never be longer than this (allocations are capped at
`isize::MAX` bytes). -/
def ISIZE_MAX : Nat := 2 ^ 63 - 1

/-- Model of `usize::checked_div`. -/
def checked_div (a b : Nat) : Option Nat :=
  if b = 0 then none else some (a / b)

/-- Model of `usize::checked_mul`: fails iff the product overflows. -/
def checked_mul (a b : Nat) : Option Nat :=
  if a * b ≤ USIZE_MAX then some (a * b) else none

/-- Model of `usize::checked_add`: fails iff the sum overflows. -/
def checked_add (a b : Nat) : Option Nat :=
  if a + b ≤ USIZE_MAX then some (a + b) else none

/-- Model of `Option::ok_or`: turn an `Option` into an `Except` with the
given error for `none`. -/
def okOr {ε β : Type} (o : Option β) (e : ε) : Except ε β :=
  match o with
  | some x => Except.ok x
  | none => Except.error e

/-- `data::Index` wraps a `usize` (`get_index` projects it; `From<usize>`
injects); we model it directly as `Nat`. -/
abbrev Index := Nat

/-- `data::DepthOffset`: a (depth, offset-within-level) pair; the `data`
module is not among the shown sources, so the shape comes from the spec
(§3: depth 0 is the root, offset counts within the level). -/
structure DepthOffset where
  depth : Nat
  offset : Nat
deriving DecidableEq, Repr

/-- `error::LeMerkLevelError`, reconstructed from its uses in `lib.rs`. -/
inductive LeMerkLevelError where
  | Overflow
deriving DecidableEq, Repr

/-- `error::IndexError`, reconstructed from its uses in `lib.rs` and the
spec's §7 error taxonomy. -/
inductive IndexError where
  | IndexOverflow
  | IndexBadDivision
deriving DecidableEq, Repr

/-- `error::LeMerkTreeError`, reconstructed from its uses in `lib.rs`. -/
inductive LeMerkTreeError where
  | Overflow
  | BadDivision
  | BadMultiplication
  | BadAddition
deriving DecidableEq, Repr

/-- Conversion of level errors into tree errors performed by `?` at the
`flat_hash_tree` access (spec §7: `Level` errors wrap into tree errors;
the `From` impl lives in the `error` module, not among the shown sources). -/
def levelErrorToTreeError : LeMerkLevelError → LeMerkTreeError
  | LeMerkLevelError.Overflow => LeMerkTreeError.Overflow

/-- Conversion of coordinate errors into tree errors performed by `?` in
`get_node_by_depth_offset` (spec §7: coordinate errors wrap into tree
errors; the `From` impl lives in the `error` module, not among the shown
sources). -/
def indexErrorToTreeError : IndexError → LeMerkTreeError
  | IndexError.IndexOverflow => LeMerkTreeError.Overflow
  | IndexError.IndexBadDivision => LeMerkTreeError.BadDivision

/-- `LeMerkLevel<CIPHER_BLOCK_SIZE>`: one contiguous buffer of fixed-size
hash blocks (the tuple struct field `.0` becomes `blocks`). -/
structure LeMerkLevel (α : Type) where
  blocks : List α
deriving DecidableEq, Repr

/-- `LeMerkLevel::get_cipher_block`: checked copy-out access. -/
def LeMerkLevel.get_cipher_block {α : Type} (l : LeMerkLevel α) (value : Index) :
    Except LeMerkLevelError α :=
  if h : value < l.blocks.length then
    Except.ok (l.blocks.get ⟨value, h⟩)
  else
    Except.error LeMerkLevelError.Overflow

/-- `LeMerkLevel::get_cipher_block_mut_ref`: checked access handing out a
mutable reference; obtaining the reference is modelled as reading the
block (the call itself mutates nothing). -/
def LeMerkLevel.get_cipher_block_mut_ref {α : Type} (l : LeMerkLevel α) (value : Index) :
    Except LeMerkLevelError α :=
  if h : value < l.blocks.length then
    Except.ok (l.blocks.get ⟨value, h⟩)
  else
    Except.error LeMerkLevelError.Overflow

/-- Writing a block through the reference returned by
`get_cipher_block_mut_ref`: same bounds check, then in-place update. -/
def LeMerkLevel.set_cipher_block {α : Type} (l : LeMerkLevel α) (value : Index) (b : α) :
    Except LeMerkLevelError (LeMerkLevel α) :=
  if value < l.blocks.length then
    Except.ok ⟨l.blocks.set value b⟩
  else
    Except.error LeMerkLevelError.Overflow

/-- `LeMerkTree<CIPHER_BLOCK_SIZE>`. -/
structure LeMerkTree (α : Type) where
  depth_length : Nat
  max_index : Index
  flat_hash_tree : LeMerkLevel α
deriving DecidableEq, Repr

/-- The data-model invariant of a `LeMerkTree` (spec §3): the flat buffer
holds exactly `max_index + 1` blocks. The length bound records that the
backing `Vec` of (positive-size) hash blocks fits in a Rust allocation,
which is capped at `isize::MAX` bytes. -/
def LeMerkTree.wellFormed {α : Type} (t : LeMerkTree α) : Prop :=
  t.flat_hash_tree.blocks.length = t.max_index + 1 ∧
  t.flat_hash_tree.blocks.length ≤ ISIZE_MAX

instance {α : Type} (t : LeMerkTree α) : Decidable t.wellFormed := by
  unfold LeMerkTree.wellFormed; infer_instance

/-- `VirtualNode<'a, CIPHER_BLOCK_SIZE>`: the borrowed hash reference
`data_hash` is modelled by the block value. -/
structure VirtualNode (α : Type) where
  data_hash : α
  index : Index
  ancestor : Option Index
  left : Option Index
  right : Option Index
deriving DecidableEq, Repr

/-- `VirtualNode::get_index`. -/
def VirtualNode.get_index {α : Type} (v : VirtualNode α) : Index :=
  v.index

/-- `VirtualNode::get_ancestor`: recomputes the ancestor from the node's
own index by the same algebra used at lookup time. -/
def VirtualNode.get_ancestor {α : Type} (v : VirtualNode α) :
    Except IndexError (Option Index) :=
  let index := v.index
  match okOr (checked_div index 2) IndexError.IndexBadDivision with
  | Except.error e => Except.error e
  | Except.ok be_ancestor =>
    let ancestor : Option Index :=
      if be_ancestor < index then some be_ancestor else none
    Except.ok ancestor

/-- `LeMerkTree::get_node_by_index`, line by line from `lib.rs`:
bounds check against `max_index`, then the ancestor / right / left
coordinate computations with checked arithmetic, then the block fetch. -/
def LeMerkTree.get_node_by_index {α : Type} (t : LeMerkTree α) (index : Index) :
    Except LeMerkTreeError (VirtualNode α) :=
  if index > t.max_index then Except.error LeMerkTreeError.Overflow else
  match okOr (checked_div index 2) LeMerkTreeError.BadDivision with
  | Except.error e => Except.error e
  | Except.ok be_ancestor =>
    let ancestor : Option Index :=
      if be_ancestor < index then some be_ancestor else none
    match okOr (checked_mul index 2) LeMerkTreeError.BadMultiplication with
    | Except.error e => Except.error e
    | Except.ok m =>
      match okOr (checked_add m 1) LeMerkTreeError.BadAddition with
      | Except.error e => Except.error e
      | Except.ok be_right =>
        let right : Option Index :=
          if be_right ≤ t.max_index then some be_right else none
        -- left is always strictly less than right in this scope, so when
        -- right is not None left should be Some(value).
        let leftComputation : Except LeMerkTreeError (Option Index) :=
          if right ≠ none then
            match okOr (checked_mul index 2) LeMerkTreeError.BadMultiplication with
            | Except.error e => Except.error e
            | Except.ok l => Except.ok (some l)
          else Except.ok none
        match leftComputation with
        | Except.error e => Except.error e
        | Except.ok left =>
          match t.flat_hash_tree.get_cipher_block_mut_ref index with
          | Except.error e => Except.error (levelErrorToTreeError e)
          | Except.ok data =>
            Except.ok
              { data_hash := data
                index := index
                ancestor := ancestor
                left := left
                right := right }

/-- Modelled from the spec: `Index::try_from(DepthOffset)` lives in the
`data` module, which is not among the shown sources. Spec §3: a node at
depth `d`, offset `o` sits at the position reachable by the same
ancestor/child relation used for `Index` (ancestor of `i` is `i / 2`,
root at flat position `0`); hence depth `d ≥ 1` occupies the flat
positions `2^(d-1) .. 2^d - 1` and the conversion fails with
`IndexOverflow` when the pair is outside the declared shape (§4.1). -/
def Index.tryFrom (v : DepthOffset) : Except IndexError Index :=
  if v.depth = 0 then
    if v.offset = 0 then Except.ok 0 else Except.error IndexError.IndexOverflow
  else
    if v.offset < 2 ^ (v.depth - 1) then
      Except.ok (2 ^ (v.depth - 1) + v.offset)
    else
      Except.error IndexError.IndexOverflow

/-- `LeMerkTree::get_node_by_depth_offset`: coordinate conversion, then
lookup by index. -/
def LeMerkTree.get_node_by_depth_offset {α : Type} (t : LeMerkTree α) (value : DepthOffset) :
    Except LeMerkTreeError (VirtualNode α) :=
  match Index.tryFrom value with
  | Except.error e => Except.error (indexErrorToTreeError e)
  | Except.ok index => t.get_node_by_index index

/-- Modelled from the spec: the inverse conversion `Index → DepthOffset`
is not implemented in the core; spec §4.1 says it "should be derivable by
repeated halving while counting depth". `index_depth i` counts the
halvings needed to reach `0`. -/
def index_depth : Nat → Nat
  | 0 => 0
  | n + 1 => index_depth ((n + 1) / 2) + 1
decreasing_by exact Nat.div_lt_self (Nat.succ_pos n) (by omega)

/-- Modelled from the spec: the depth/offset pair of a flat index,
derived by repeated halving while counting depth (§4.1); the offset is
the distance to the first flat position of that depth. -/
def indexToDepthOffset (i : Index) : DepthOffset :=
  let d := index_depth i
  if d = 0 then ⟨0, 0⟩ else ⟨d, i - 2 ^ (d - 1)⟩

/-- Writing a hash value through the `data_hash` mutable reference of the
`VirtualNode` returned by the (mutable) lookup `get_node_by_index`:
the lookup must succeed, after which the write lands in the slot the
reference points at. -/
def LeMerkTree.write_hash_by_index {α : Type} (t : LeMerkTree α) (index : Index) (b : α) :
    Except LeMerkTreeError (LeMerkTree α) :=
  match t.get_node_by_index index with
  | Except.error e => Except.error e
  | Except.ok _ =>
    Except.ok { t with flat_hash_tree := ⟨t.flat_hash_tree.blocks.set index b⟩ }

instance {ε α : Type} [DecidableEq ε] [DecidableEq α] : DecidableEq (Except ε α) := fun a b =>
  match a, b with
  | Except.ok x, Except.ok y =>
    if h : x = y then isTrue (by rw [h]) else isFalse (fun c => h (by injection c))
  | Except.error x, Except.error y =>
    if h : x = y then isTrue (by rw [h]) else isFalse (fun c => h (by injection c))
  | Except.ok _, Except.error _ => isFalse (fun c => by injection c)
  | Except.error _, Except.ok _ => isFalse (fun c => by injection c)

/-! ## Helper lemmas about the checked arithmetic -/

theorem okOr_some {ε β : Type} (x : β) (e : ε) : okOr (some x) e = Except.ok x := rfl

theorem okOr_none {ε β : Type} (e : ε) : okOr (none : Option β) e = Except.error e := rfl

theorem checked_div_two (a : Nat) : checked_div a 2 = some (a / 2) := by
  unfold checked_div
  norm_num

theorem checked_mul_eq_some {a b : Nat} (h : a * b ≤ USIZE_MAX) :
    checked_mul a b = some (a * b) := by
  unfold checked_mul
  rw [if_pos h]

theorem checked_mul_eq_none {a b : Nat} (h : USIZE_MAX < a * b) :
    checked_mul a b = none := by
  unfold checked_mul
  rw [if_neg (by omega)]

theorem checked_add_eq_some {a b : Nat} (h : a + b ≤ USIZE_MAX) :
    checked_add a b = some (a + b) := by
  unfold checked_add
  rw [if_pos h]

theorem checked_add_eq_none {a b : Nat} (h : USIZE_MAX < a + b) :
    checked_add a b = none := by
  unfold checked_add
  rw [if_neg (by omega)]

/-! ## Characterization of `get_node_by_index`, one lemma per control path -/

/-- Success path: in bounds, no arithmetic overflow, block present. -/
theorem get_node_by_index_ok {α : Type} (t : LeMerkTree α) (i : Nat)
    (hle : i ≤ t.max_index) (hov : i * 2 + 1 ≤ USIZE_MAX)
    (hlen : i < t.flat_hash_tree.blocks.length) :
    t.get_node_by_index i =
      Except.ok
        { data_hash := t.flat_hash_tree.blocks.get ⟨i, hlen⟩
          index := i
          ancestor := if i = 0 then none else some (i / 2)
          left := if i * 2 + 1 ≤ t.max_index then some (i * 2) else none
          right := if i * 2 + 1 ≤ t.max_index then some (i * 2 + 1) else none } := by
  have hm : checked_mul i 2 = some (i * 2) :=
    checked_mul_eq_some (by simp only [USIZE_MAX] at hov ⊢; omega)
  have ha : checked_add (i * 2) 1 = some (i * 2 + 1) := checked_add_eq_some hov
  have hanc : (if i / 2 < i then some (i / 2) else none) =
      (if i = 0 then none else some (i / 2)) := by
    rcases Nat.eq_zero_or_pos i with h0 | h0
    · subst h0; norm_num
    · rw [if_pos (Nat.div_lt_self h0 (by omega)), if_neg (by omega)]
  unfold LeMerkTree.get_node_by_index LeMerkLevel.get_cipher_block_mut_ref
  rw [if_neg (show ¬ i > t.max_index by omega)]
  simp only [checked_div_two, hm, ha, okOr_some, hanc]
  by_cases hr : i * 2 + 1 ≤ t.max_index
  · simp only [if_pos hr]
    simp [hlen]
  · simp only [if_neg hr]
    simp [hlen]

/-- Out-of-bounds path: the very first guard returns `Overflow`. -/
theorem get_node_by_index_overflow_of_gt {α : Type} (t : LeMerkTree α) (i : Nat)
    (h : i > t.max_index) :
    t.get_node_by_index i = Except.error LeMerkTreeError.Overflow := by
  unfold LeMerkTree.get_node_by_index
  rw [if_pos h]

/-- Multiplication-overflow path. -/
theorem get_node_by_index_err_mul {α : Type} (t : LeMerkTree α) (i : Nat)
    (hle : i ≤ t.max_index) (h : USIZE_MAX < i * 2) :
    t.get_node_by_index i = Except.error LeMerkTreeError.BadMultiplication := by
  have hm : checked_mul i 2 = none := checked_mul_eq_none h
  unfold LeMerkTree.get_node_by_index
  rw [if_neg (show ¬ i > t.max_index by omega)]
  simp only [checked_div_two, hm, okOr_some, okOr_none]

/-- Addition-overflow path. -/
theorem get_node_by_index_err_add {α : Type} (t : LeMerkTree α) (i : Nat)
    (hle : i ≤ t.max_index) (h2 : i * 2 ≤ USIZE_MAX) (h3 : USIZE_MAX < i * 2 + 1) :
    t.get_node_by_index i = Except.error LeMerkTreeError.BadAddition := by
  have hm : checked_mul i 2 = some (i * 2) := checked_mul_eq_some h2
  have ha : checked_add (i * 2) 1 = none := checked_add_eq_none h3
  unfold LeMerkTree.get_node_by_index
  rw [if_neg (show ¬ i > t.max_index by omega)]
  simp only [checked_div_two, hm, ha, okOr_some, okOr_none]

/-- Short-buffer path: the block fetch fails and its `Overflow` is wrapped. -/
theorem get_node_by_index_err_len {α : Type} (t : LeMerkTree α) (i : Nat)
    (hle : i ≤ t.max_index) (hov : i * 2 + 1 ≤ USIZE_MAX)
    (hlen : t.flat_hash_tree.blocks.length ≤ i) :
    t.get_node_by_index i = Except.error LeMerkTreeError.Overflow := by
  have hm : checked_mul i 2 = some (i * 2) :=
    checked_mul_eq_some (by simp only [USIZE_MAX] at hov ⊢; omega)
  have ha : checked_add (i * 2) 1 = some (i * 2 + 1) := checked_add_eq_some hov
  unfold LeMerkTree.get_node_by_index LeMerkLevel.get_cipher_block_mut_ref
  rw [if_neg (show ¬ i > t.max_index by omega)]
  simp only [checked_div_two, hm, ha, okOr_some]
  by_cases hr : i * 2 + 1 ≤ t.max_index
  · simp only [if_pos hr]
    simp [levelErrorToTreeError, show ¬ i < t.flat_hash_tree.blocks.length by omega]
  · simp only [if_neg hr]
    simp [levelErrorToTreeError, show ¬ i < t.flat_hash_tree.blocks.length by omega]

/-- Every run of `get_node_by_index` ends in one of four results. -/
theorem get_node_by_index_cases {α : Type} (t : LeMerkTree α) (i : Nat) :
    (∃ node, t.get_node_by_index i = Except.ok node) ∨
    t.get_node_by_index i = Except.error LeMerkTreeError.Overflow ∨
    t.get_node_by_index i = Except.error LeMerkTreeError.BadMultiplication ∨
    t.get_node_by_index i = Except.error LeMerkTreeError.BadAddition := by
  by_cases hgt : i > t.max_index
  · exact Or.inr (Or.inl (get_node_by_index_overflow_of_gt t i hgt))
  by_cases hm : USIZE_MAX < i * 2
  · exact Or.inr (Or.inr (Or.inl (get_node_by_index_err_mul t i (by omega) hm)))
  by_cases ha : USIZE_MAX < i * 2 + 1
  · exact Or.inr (Or.inr (Or.inr (get_node_by_index_err_add t i (by omega) (by omega) ha)))
  by_cases hlen : i < t.flat_hash_tree.blocks.length
  · exact Or.inl ⟨_, get_node_by_index_ok t i (by omega) (by omega) hlen⟩
  · exact Or.inr (Or.inl (get_node_by_index_err_len t i (by omega) (by omega) (by omega)))

/-- Inversion of the success case: a returned node pins down every field
and the three guards. -/
theorem get_node_by_index_ok_inv {α : Type} (t : LeMerkTree α) (i : Nat)
    (node : VirtualNode α) (h : t.get_node_by_index i = Except.ok node) :
    i ≤ t.max_index ∧ i * 2 + 1 ≤ USIZE_MAX ∧
    ∃ hlen : i < t.flat_hash_tree.blocks.length,
      node =
        { data_hash := t.flat_hash_tree.blocks.get ⟨i, hlen⟩
          index := i
          ancestor := if i = 0 then none else some (i / 2)
          left := if i * 2 + 1 ≤ t.max_index then some (i * 2) else none
          right := if i * 2 + 1 ≤ t.max_index then some (i * 2 + 1) else none } := by
  by_cases hgt : i > t.max_index
  · rw [get_node_by_index_overflow_of_gt t i hgt] at h; exact absurd h (by simp)
  by_cases hm : USIZE_MAX < i * 2
  · rw [get_node_by_index_err_mul t i (by omega) hm] at h; exact absurd h (by simp)
  by_cases ha : USIZE_MAX < i * 2 + 1
  · rw [get_node_by_index_err_add t i (by omega) (by omega) ha] at h
    exact absurd h (by simp)
  by_cases hlen : i < t.flat_hash_tree.blocks.length
  · rw [get_node_by_index_ok t i (by omega) (by omega) hlen] at h
    exact ⟨by omega, by omega, hlen, (Except.ok.inj h).symm⟩
  · rw [get_node_by_index_err_len t i (by omega) (by omega) (by omega)] at h
    exact absurd h (by simp)

/-- The tree invariant provides the side conditions of the success path. -/
theorem wellFormed_bounds {α : Type} {t : LeMerkTree α} (hwf : t.wellFormed)
    {i : Nat} (hle : i ≤ t.max_index) :
    i * 2 + 1 ≤ USIZE_MAX ∧ i < t.flat_hash_tree.blocks.length := by
  have h := hwf
  unfold LeMerkTree.wellFormed at h
  obtain ⟨h1, h2⟩ := h
  simp only [ISIZE_MAX] at h2
  simp only [USIZE_MAX]
  omega

/-- `get_ancestor` always succeeds: the checked division by `2` cannot
fail, so the only remaining step is the comparison. -/
theorem get_ancestor_eq {α : Type} (v : VirtualNode α) :
    v.get_ancestor =
      Except.ok (if v.index / 2 < v.index then some (v.index / 2) else none) := by
  unfold VirtualNode.get_ancestor
  simp only [checked_div_two, okOr_some]

/-! ## The depth of a flat index, obtained by repeated halving -/

theorem index_depth_zero : index_depth 0 = 0 := by
  rw [index_depth]

theorem index_depth_succ (n : Nat) : index_depth (n + 1) = index_depth ((n + 1) / 2) + 1 := by
  rw [index_depth]

theorem index_depth_pos {n : Nat} (h : 1 ≤ n) : 1 ≤ index_depth n := by
  match n, h with
  | m + 1, _ => rw [index_depth_succ]; omega

/-- A positive index `n` of depth `d` lies in the flat range
`2^(d-1) .. 2^d - 1` of its level. -/
theorem index_depth_spec (n : Nat) (h : 1 ≤ n) :
    2 ^ (index_depth n - 1) ≤ n ∧ n < 2 ^ (index_depth n) := by
  induction n using Nat.strong_induction_on with
  | _ n ih =>
    match n, h with
    | 1, _ =>
      have : index_depth 1 = 1 := by rw [index_depth_succ]; simp [index_depth_zero]
      rw [this]
      norm_num
    | m + 2, _ =>
      have hd : index_depth (m + 2) = index_depth ((m + 2) / 2) + 1 := index_depth_succ (m + 1)
      have h2 : 1 ≤ (m + 2) / 2 := by omega
      have hlt : (m + 2) / 2 < m + 2 := by omega
      obtain ⟨ih1, ih2⟩ := ih _ hlt h2
      have hdp : 1 ≤ index_depth ((m + 2) / 2) := index_depth_pos h2
      have e1 : 2 ^ (index_depth ((m + 2) / 2)) = 2 * 2 ^ (index_depth ((m + 2) / 2) - 1) := by
        conv_lhs => rw [show index_depth ((m + 2) / 2) = (index_depth ((m + 2) / 2) - 1) + 1 by omega]
        rw [pow_succ]
        ring
      have e2 : 2 ^ (index_depth ((m + 2) / 2) + 1) = 2 * 2 ^ (index_depth ((m + 2) / 2)) := by
        rw [pow_succ]; ring
      rw [hd]
      constructor
      · simp only [Nat.add_sub_cancel]
        omega
      · omega

/-- Full round trip for every flat index. -/
theorem tryFrom_indexToDepthOffset (i : Nat) :
    Index.tryFrom (indexToDepthOffset i) = Except.ok i := by
  rcases Nat.eq_zero_or_pos i with h0 | h0
  · subst h0
    simp [indexToDepthOffset, index_depth_zero, Index.tryFrom]
  · obtain ⟨hlo, hhi⟩ := index_depth_spec i h0
    have hdp : 1 ≤ index_depth i := index_depth_pos h0
    have e1 : 2 ^ (index_depth i) = 2 * 2 ^ (index_depth i - 1) := by
      conv_lhs => rw [show index_depth i = (index_depth i - 1) + 1 by omega]
      rw [pow_succ]; ring
    unfold indexToDepthOffset
    rw [if_neg (by omega)]
    unfold Index.tryFrom
    simp only
    rw [if_neg (by omega), if_pos (by omega)]
    congr 1
    exact Nat.add_sub_cancel' hlo

/-! ## The claims -/

/-- A small concrete tree used to witness the conditional theorems:
three levels, `max_index = 6`, seven blocks. -/
def exTree : LeMerkTree Nat :=
  { depth_length := 3
    max_index := 6
    flat_hash_tree := { blocks := [10, 20, 30, 40, 50, 60, 70] } }

/-- C1: for every well-formed tree and every index `i ≤ max_index`, the
lookup returns a node whose `right` is `some (2*i+1)` exactly when
`2*i+1 ≤ max_index` (else `none`), and whose `left` is `some (2*i)`
exactly under the same condition — no right child means no left child. -/
theorem C1_children_coordinates {α : Type} (t : LeMerkTree α) (i : Nat)
    (hwf : t.wellFormed) (hle : i ≤ t.max_index) :
    ∃ node, t.get_node_by_index i = Except.ok node ∧
      node.right = (if 2 * i + 1 ≤ t.max_index then some (2 * i + 1) else none) ∧
      node.left = (if 2 * i + 1 ≤ t.max_index then some (2 * i) else none) := by
  obtain ⟨hov, hlen⟩ := wellFormed_bounds hwf hle
  refine ⟨_, get_node_by_index_ok t i hle hov hlen, ?_, ?_⟩ <;>
    rw [Nat.mul_comm i 2]

theorem C1_witness :
    ∃ node, exTree.get_node_by_index 2 = Except.ok node ∧
      node.right = (if 2 * 2 + 1 ≤ exTree.max_index then some (2 * 2 + 1) else none) ∧
      node.left = (if 2 * 2 + 1 ≤ exTree.max_index then some (2 * 2) else none) :=
  C1_children_coordinates exTree 2 (by decide) (by decide)

/-- C2: for every well-formed tree and every index `i ≤ max_index`, the
looked-up node's `ancestor` is `some (i / 2)` for `i > 0` and `none`
for `i = 0`. -/
theorem C2_ancestor_coordinate {α : Type} (t : LeMerkTree α) (i : Nat)
    (hwf : t.wellFormed) (hle : i ≤ t.max_index) :
    ∃ node, t.get_node_by_index i = Except.ok node ∧
      node.ancestor = (if i = 0 then none else some (i / 2)) := by
  obtain ⟨hov, hlen⟩ := wellFormed_bounds hwf hle
  exact ⟨_, get_node_by_index_ok t i hle hov hlen, rfl⟩

theorem C2_witness :
    ∃ node, exTree.get_node_by_index 5 = Except.ok node ∧
      node.ancestor = (if 5 = 0 then none else some (5 / 2)) :=
  C2_ancestor_coordinate exTree 5 (by decide) (by decide)

/-- C3: on every well-formed tree with `max_index ≥ 1`, looking up the
root index `0` yields `right = some 1` and `left = some 0`: the formula
`2*i` makes the 0-indexed root its own left child. -/
theorem C3_root_own_left_child {α : Type} (t : LeMerkTree α)
    (hwf : t.wellFormed) (h1 : 1 ≤ t.max_index) :
    ∃ node, t.get_node_by_index 0 = Except.ok node ∧
      node.right = some 1 ∧ node.left = some 0 := by
  obtain ⟨hov, hlen⟩ := wellFormed_bounds hwf (Nat.zero_le t.max_index)
  refine ⟨_, get_node_by_index_ok t 0 (Nat.zero_le t.max_index) hov hlen, ?_, ?_⟩ <;>
    simp [h1]

theorem C3_witness :
    ∃ node, exTree.get_node_by_index 0 = Except.ok node ∧
      node.right = some 1 ∧ node.left = some 0 :=
  C3_root_own_left_child exTree (by decide) (by decide)

/-- C4: for any tree shape (no invariant assumed) and any index
`i > max_index`, `get_node_by_index` returns the `Overflow` error, and a
depth/offset lookup whose converted index is that `i` does too; the
model is total, so no panic is possible. -/
theorem C4_out_of_bounds_overflow {α : Type} (t : LeMerkTree α) (i : Nat)
    (d : DepthOffset) (h : i > t.max_index) :
    t.get_node_by_index i = Except.error LeMerkTreeError.Overflow ∧
      (Index.tryFrom d = Except.ok i →
        t.get_node_by_depth_offset d = Except.error LeMerkTreeError.Overflow) := by
  refine ⟨get_node_by_index_overflow_of_gt t i h, fun htf => ?_⟩
  unfold LeMerkTree.get_node_by_depth_offset
  rw [htf]
  exact get_node_by_index_overflow_of_gt t i h

theorem C4_witness :
    exTree.get_node_by_index 7 = Except.error LeMerkTreeError.Overflow ∧
      (Index.tryFrom ⟨3, 3⟩ = Except.ok 7 →
        exTree.get_node_by_depth_offset ⟨3, 3⟩ = Except.error LeMerkTreeError.Overflow) :=
  C4_out_of_bounds_overflow exTree 7 ⟨3, 3⟩ (by decide)

/-- C5: on every tree satisfying the length invariant, every index
`i ≤ max_index` looks up successfully and the returned node's `index`
field is `i` itself. -/
theorem C5_lookup_succeeds_index_id {α : Type} (t : LeMerkTree α) (i : Nat)
    (hwf : t.wellFormed) (hle : i ≤ t.max_index) :
    ∃ node, t.get_node_by_index i = Except.ok node ∧ node.index = i := by
  obtain ⟨hov, hlen⟩ := wellFormed_bounds hwf hle
  exact ⟨_, get_node_by_index_ok t i hle hov hlen, rfl⟩

theorem C5_witness :
    ∃ node, exTree.get_node_by_index 6 = Except.ok node ∧ node.index = 6 :=
  C5_lookup_succeeds_index_id exTree 6 (by decide) (by decide)

/-- C6: converting an in-bounds index to its depth/offset pair by
repeated halving and back through `Index.tryFrom` round-trips to the
same index. -/
theorem C6_depth_offset_round_trip {α : Type} (t : LeMerkTree α) (i : Nat)
    (_hle : i ≤ t.max_index) :
    Index.tryFrom (indexToDepthOffset i) = Except.ok i :=
  tryFrom_indexToDepthOffset i

theorem C6_witness :
    Index.tryFrom (indexToDepthOffset 5) = Except.ok 5 :=
  C6_depth_offset_round_trip exTree 5 (by decide)

/-- C7: a hash written through the mutable lookup of index `i` is seen
by a subsequent lookup of `i` and leaves every other slot unchanged. -/
theorem C7_write_read_frame {α : Type} (t t' : LeMerkTree α) (i : Nat) (b : α)
    (h : t.write_hash_by_index i b = Except.ok t') :
    (∃ node, t'.get_node_by_index i = Except.ok node ∧ node.data_hash = b) ∧
      (∀ j : Nat, j ≠ i →
        t'.flat_hash_tree.get_cipher_block j = t.flat_hash_tree.get_cipher_block j) := by
  unfold LeMerkTree.write_hash_by_index at h
  cases hc : t.get_node_by_index i with
  | error e => rw [hc] at h; exact absurd h (by simp)
  | ok node0 =>
    rw [hc] at h
    have ht' : t' = { t with flat_hash_tree := ⟨t.flat_hash_tree.blocks.set i b⟩ } :=
      (Except.ok.inj h).symm
    obtain ⟨hle, hov, hlen, -⟩ := get_node_by_index_ok_inv t i node0 hc
    subst ht'
    have hlen' : i < (t.flat_hash_tree.blocks.set i b).length := by
      rw [List.length_set]; exact hlen
    constructor
    · refine ⟨_, get_node_by_index_ok
        { t with flat_hash_tree := ⟨t.flat_hash_tree.blocks.set i b⟩ } i hle hov hlen', ?_⟩
      simp [List.get_eq_getElem]
    · intro j hj
      unfold LeMerkLevel.get_cipher_block
      simp only [List.length_set]
      by_cases hjl : j < t.flat_hash_tree.blocks.length
      · rw [dif_pos hjl, dif_pos hjl]
        simp only [List.get_eq_getElem, Except.ok.injEq]
        rw [List.getElem_set_ne]
        omega
      · rw [dif_neg hjl, dif_neg hjl]

theorem C7_witness :
    (∃ node, (LeMerkTree.mk 3 6 ⟨[10, 20, 99, 40, 50, 60, 70]⟩).get_node_by_index 2
        = Except.ok node ∧ node.data_hash = 99) ∧
      (∀ j : Nat, j ≠ 2 →
        (LeMerkLevel.mk [10, 20, 99, 40, 50, 60, 70]).get_cipher_block j
          = (LeMerkLevel.mk [10, 20, 30, 40, 50, 60, 70]).get_cipher_block j) :=
  C7_write_read_frame exTree (LeMerkTree.mk 3 6 ⟨[10, 20, 99, 40, 50, 60, 70]⟩) 2 99 (by rfl)

/-- C8: the `ancestor` field cached at lookup time always agrees with
the independently recomputed `VirtualNode.get_ancestor`. -/
theorem C8_recomputed_ancestor_agrees {α : Type} (t : LeMerkTree α) (i : Nat)
    (node : VirtualNode α) (h : t.get_node_by_index i = Except.ok node) :
    node.get_ancestor = Except.ok node.ancestor := by
  obtain ⟨hle, hov, hlen, hnode⟩ := get_node_by_index_ok_inv t i node h
  subst hnode
  rw [get_ancestor_eq]
  simp only
  rcases Nat.eq_zero_or_pos i with h0 | h0
  · subst h0; norm_num
  · rw [if_pos (Nat.div_lt_self h0 (by omega)), if_neg (by omega)]

theorem C8_witness :
    (VirtualNode.mk 20 1 (some 0) (some 2) (some 3)).get_ancestor
      = Except.ok (VirtualNode.mk 20 1 (some 0) (some 2) (some 3)).ancestor :=
  C8_recomputed_ancestor_agrees exTree 1 (VirtualNode.mk 20 1 (some 0) (some 2) (some 3)) (by rfl)

/-- C9: for every level, block reads (plain and mutable) succeed exactly
below the backing length, fail with `Overflow` exactly at or above it,
and the mutable variant performs the very same computation; both are
total pure functions of the level, so they neither panic nor mutate. -/
theorem C9_level_bounds_check {α : Type} (l : LeMerkLevel α) (i : Nat) :
    ((∃ b, l.get_cipher_block i = Except.ok b) ↔ i < l.blocks.length) ∧
      (l.get_cipher_block i = Except.error LeMerkLevelError.Overflow ↔ l.blocks.length ≤ i) ∧
      l.get_cipher_block_mut_ref i = l.get_cipher_block i := by
  unfold LeMerkLevel.get_cipher_block LeMerkLevel.get_cipher_block_mut_ref
  by_cases h : i < l.blocks.length
  · rw [dif_pos h]
    refine ⟨⟨fun _ => h, fun _ => ⟨_, rfl⟩⟩, ?_, rfl⟩
    constructor
    · intro hx; exact absurd hx (by simp)
    · intro hx; omega
  · rw [dif_neg h]
    refine ⟨⟨?_, fun hx => absurd hx h⟩, ⟨fun _ => by omega, fun _ => rfl⟩, rfl⟩
    rintro ⟨b, hb⟩
    exact absurd hb (by simp)

/-- C10: no run of `get_node_by_index` can return `BadDivision` and no
run of `get_ancestor` can return `IndexBadDivision`: the checked
division is by the constant `2`, which never fails. -/
theorem C10_bad_division_unreachable {α : Type} (t : LeMerkTree α) (i : Nat)
    (v : VirtualNode α) :
    t.get_node_by_index i ≠ Except.error LeMerkTreeError.BadDivision ∧
      v.get_ancestor ≠ Except.error IndexError.IndexBadDivision := by
  constructor
  · rcases get_node_by_index_cases t i with ⟨node, hn⟩ | hn | hn | hn <;>
      rw [hn] <;> simp
  · rw [get_ancestor_eq]; simp

end LeMerk
